import Mathlib

/-!
Shallow embedding of `src/vscode-cairo/src/extension.ts` (the vscode-cairo
extension): executable discovery for the Cairo language server and the Scarb
build tool, the language-server bootstrap, and the vfs content provider.

Modelling conventions:
* The filesystem is a function from path strings to a `StatResult`; `stat`
  failures of any kind (absent entry, permission error, I/O error) are the
  `missing`/`statError` outcomes.
* JavaScript strings are Lean `String`s; truthiness of a
  `string | undefined` value (`Option String`) is explicit (`jsTruthy`).
* `path.join(d, b)` is modelled as `d ++ "/" ++ b` (POSIX separator, no
  normalisation; the sources only join non-empty directories with relative
  names).  `path.delimiter` is an explicit `Char` parameter.
* `Promise.all` over the candidate existence checks is modelled both directly
  (its results keep index order) and as a completion-schedule semantics
  (`fillSlots` / `promiseAllSched`) in which the results array is filled in an
  arbitrary completion order.
-/

/-- Outcome of `fs.promises.stat` / basis of `fs.existsSync` for one path:
a regular file, a directory (or other non-file entry), no entry at all, or a
stat error (permission, I/O, ...). -/
inductive StatResult where
  | file
  | dir
  | missing
  | statError
deriving DecidableEq, Repr

/-- A filesystem snapshot: what `stat` reports for each path. -/
abbrev FileSystem := String → StatResult

/-- Model of `fs.existsSync`: true when the entry can be stat-ed at all
(file or directory), false when the path is absent or stat fails. -/
def existsSync (fs : FileSystem) (p : String) : Bool :=
  match fs p with
  | .file => true
  | .dir => true
  | .missing => false
  | .statError => false

/-- Model of the source's `fileExists` helper:
`fs.promises.stat(path).then((stat) => stat.isFile() ? path : undefined, () => undefined)` —
the path when it is a regular file, `undefined` otherwise (rejections included). -/
def fileExists (fs : FileSystem) (p : String) : Option String :=
  match fs p with
  | .file => some p
  | _ => none

/-- The path names a regular file (Boolean form of `stat.isFile()`). -/
def isFile (fs : FileSystem) (p : String) : Bool :=
  match fs p with
  | .file => true
  | _ => false

/-- The double-quote character (used by the PATH quote-stripping regex). -/
def quoteChar : Char := Char.ofNat 34

/-- The semicolon, separator of the `PATHEXT` extension list. -/
def semicolonChar : Char := Char.ofNat 59

/-- The colon, POSIX value of `path.delimiter`. -/
def colonChar : Char := Char.ofNat 58

/-- The dollar character (JS replacement-pattern escapes). -/
def dollarChar : Char := Char.ofNat 36

/-- The ampersand (JS replacement pattern for the matched substring). -/
def ampersandChar : Char := Char.ofNat 38

/-- The backquote (JS replacement pattern for the text before the match). -/
def backquoteChar : Char := Char.ofNat 96

/-- The single quote (JS replacement pattern for the text after the match). -/
def singleQuoteChar : Char := Char.ofNat 39

/-- Model of JavaScript `String.prototype.split` with a single-character
separator: `"a:b:".split(":") = ["a", "b", ""]`, `"".split(":") = [""]`. -/
def splitChar (delim : Char) : List Char → List (List Char)
  | [] => [[]]
  | c :: rest =>
    if c = delim then [] :: splitChar delim rest
    else
      match splitChar delim rest with
      | [] => [[c]]
      | seg :: segs => (c :: seg) :: segs

/-- Model of `envPath.replace(/["]+/g, "")`: drop every double-quote. -/
def stripQuotes (s : String) : String :=
  String.mk (s.data.filter (fun c => !(c == quoteChar)))

/-- The directory list of `findExecutableInPath`:
`envPath.replace(/["]+/g, "").split(path.delimiter).filter(Boolean)`. -/
def pathDirsOf (delim : Char) (envPath : String) : List String :=
  ((splitChar delim (stripQuotes envPath).data).map (fun l => String.mk l)).filter
    (fun s => !(s == ""))

/-- The extension list of `findExecutableInPath`: `envExt.split(";")`. -/
def extensionsOf (envExt : String) : List String :=
  (splitChar semicolonChar envExt.data).map (fun l => String.mk l)

/-- Model of `path.join` for one directory and one relative name. -/
def pathJoin (d b : String) : String := d ++ "/" ++ b

/-- The process environment variables consumed by the extension. -/
structure ProcessEnv where
  PATH : Option String
  PATHEXT : Option String

/-- The candidate list of `findExecutableInPath`, built exactly as the source
does: an outer loop over `pathDirs`, an inner loop over `extensions`, pushing
`path.join(d, name + ext)` onto a growing array. -/
def candidatesOf (delim : Char) (env : ProcessEnv) (name : String) : List String :=
  (pathDirsOf delim (env.PATH.getD "")).foldl
    (fun acc d =>
      (extensionsOf (env.PATHEXT.getD "")).foldl
        (fun acc2 ext => acc2 ++ [pathJoin d (name ++ ext)]) acc)
    []

/-- JavaScript truthiness of a `string | undefined` value: `undefined` and the
empty string are falsy. -/
def jsTruthy (v : Option String) : Bool := !((v.getD "") == "")

/-- Model of `findExecutableInPath(name)`: stat every candidate (the results
of `Promise.all` keep index order) and take the first truthy result, i.e. the
first candidate in enumeration order that is a regular file.  The
`try/catch` of the source is dead code here: `fileExists` never rejects. -/
def findExecutableInPath (fs : FileSystem) (delim : Char) (env : ProcessEnv)
    (name : String) : Option String :=
  (((candidatesOf delim env name).map (fileExists fs)).find? jsTruthy).join

/-- Completion-schedule semantics of `Promise.all`: the results array starts
unfilled, and each step of the schedule `order` stores the (already
determined) value of check `i` into slot `i`.  Slots are a total function so
that out-of-range writes are harmless, as in the source. -/
def fillSlots (checks : List (Option String)) :
    List Nat → (Nat → Option (Option String)) → Nat → Option (Option String)
  | [], slots => slots
  | i :: rest, slots =>
    fillSlots checks rest (fun j => if j = i then some (checks.getD i none) else slots j)

/-- The results array of `Promise.all` once the schedule has run: slot `i`
holds the value of check `i` (or `none` if the check never completed). -/
def promiseAllSched (checks : List (Option String)) (order : List Nat) :
    List (Option String) :=
  (List.range checks.length).map
    (fun i => (fillSlots checks order (fun _ => none) i).getD none)

/-- `findExecutableInPath` with the completion-schedule semantics of
`Promise.all`: the existence checks complete in the arbitrary order `order`,
then the first truthy entry of the assembled results array is returned. -/
def findExecutableInPathSched (fs : FileSystem) (delim : Char) (env : ProcessEnv)
    (name : String) (order : List Nat) : Option String :=
  ((promiseAllSched ((candidatesOf delim env name).map (fileExists fs)) order).find?
    jsTruthy).join

/-- The filesystem with every stat error turned into a plain missing entry;
used to state that probe errors behave exactly like absent files. -/
def errorsAsMissing (fs : FileSystem) : FileSystem := fun p =>
  match fs p with
  | .statError => .missing
  | r => r

/-- The build-tool candidate set as the specification words it: the Cartesian
product of the search-path directories with the extension list *plus the
empty extension*. -/
def specBuildToolCandidates (delim : Char) (env : ProcessEnv) (name : String) :
    List String :=
  (pathDirsOf delim (env.PATH.getD "")).flatMap
    (fun d => ((extensionsOf (env.PATHEXT.getD "")) ++ [""]).map
      (fun ext => pathJoin d (name ++ ext)))

/-- Does the pattern occur at the head of the text?  (`Array.isPrefixOf`
specialised to characters, spelled out for kernel-friendly evaluation.) -/
def listStartsWith : List Char → List Char → Bool
  | [], _ => true
  | _ :: _, [] => false
  | p :: ps, c :: cs => p == c && listStartsWith ps cs

/-- ECMAScript `GetSubstitution` for a replacement string and a pattern with
no capture groups: `$$` inserts a dollar, `$&` the matched text, a
dollar-backquote the text before the match, a dollar-quote the text after it;
any other dollar sequence is literal. -/
def dollarExpand (matched before after : List Char) : List Char → List Char
  | [] => []
  | c :: rest =>
    if c = dollarChar then
      match rest with
      | [] => [c]
      | d :: rest2 =>
        if d = dollarChar then dollarChar :: dollarExpand matched before after rest2
        else if d = ampersandChar then matched ++ dollarExpand matched before after rest2
        else if d = backquoteChar then before ++ dollarExpand matched before after rest2
        else if d = singleQuoteChar then after ++ dollarExpand matched before after rest2
        else c :: dollarExpand matched before after (d :: rest2)
    else c :: dollarExpand matched before after rest

/-- One left-to-right, non-overlapping replacement pass over `rest`, with
`pre` the already-consumed prefix of the original string.  At each match the
substitution `sub pre after` is emitted.  The fuel only bounds the number of
steps; since every step consumes at least one character when the pattern is
non-empty, fuel equal to the string length is exact. -/
def replaceFuel (pat : List Char) (sub : List Char → List Char → List Char) :
    Nat → List Char → List Char → List Char
  | 0, _, rest => rest
  | fuel + 1, pre, rest =>
    match rest with
    | [] => []
    | c :: rs =>
      if listStartsWith pat (c :: rs) then
        let after := (c :: rs).drop pat.length
        sub pre after ++ replaceFuel pat sub fuel (pre ++ pat) after
      else
        c :: replaceFuel pat sub fuel (pre ++ [c]) rs

/-- Model of `s.replace(/pat/g, repl)` for a literal pattern `pat`: every
occurrence is replaced left to right, and the replacement string undergoes
ECMAScript dollar-pattern expansion (`dollarExpand`). -/
def jsReplaceAll (s pat repl : String) : String :=
  String.mk (replaceFuel pat.data
    (fun before after => dollarExpand pat.data before after repl.data)
    s.data.length [] s.data)

/-- Global replacement as the specification words it: every occurrence of the
pattern is replaced by the replacement string verbatim. -/
def literalReplaceAll (s pat repl : String) : String :=
  String.mk (replaceFuel pat.data (fun _ _ => repl.data) s.data.length [] s.data)

/-- The placeholder token recognised in configured override paths. -/
def workspaceFolderPlaceholder : String := "${workspaceFolder}"

/-- The extension's configuration surface (`config.get` of the three
`cairo1.*` keys; `none` models an unset key). -/
structure ExtensionConfig where
  languageServerPath : Option String
  scarbPath : Option String
  enableLanguageServer : Option Bool

/-- Model of the root-path selection at the top of `findExecutableByConfig`:
start from `context.extensionPath`; if `vscode.workspace.workspaceFolders` is
defined, take the first folder's path (falling back to the extension path if
that path is the empty string).  An empty folder array makes the source throw
(`workspaceFolders[0].uri.path` on `undefined`), modelled as `Except.error`. -/
def resolveRootPath (extensionPath : String) (workspaceFolders : Option (List String)) :
    Except Unit String :=
  match workspaceFolders with
  | none => .ok extensionPath
  | some [] => .error ()
  | some (f :: _) => .ok (if f = "" then extensionPath else f)

/-- Model of `findExecutableByConfig`: if the configured value is truthy,
substitute the placeholder, check `fs.existsSync` and return the path or
`undefined`; otherwise defer to `defaultCallback(rootPath)`. -/
def findExecutableByConfig (fs : FileSystem) (extensionPath : String)
    (workspaceFolders : Option (List String)) (configPath : Option String)
    (defaultCallback : String → Option String) : Except Unit (Option String) :=
  match resolveRootPath extensionPath workspaceFolders with
  | .error e => .error e
  | .ok rootPath =>
    match configPath with
    | some c =>
      if c = "" then .ok (defaultCallback rootPath)
      else
        let serverPath := jsReplaceAll c workspaceFolderPlaceholder rootPath
        if existsSync fs serverPath then .ok (some serverPath) else .ok none
    | none => .ok (defaultCallback rootPath)

/-- Model of `findDevLanguageServerAt`: at each level try the release build
then the debug build under `path`, then ascend by appending `"/.."`, for at
most `depth` levels. -/
def findDevLanguageServerAt (fs : FileSystem) (path : String) : Nat → Option String
  | 0 => none
  | depth + 1 =>
    let candidate := path ++ "/target/release/cairo-language-server"
    if existsSync fs candidate then some candidate
    else
      let candidate2 := path ++ "/target/debug/cairo-language-server"
      if existsSync fs candidate2 then some candidate2
      else findDevLanguageServerAt fs (path ++ "/..") depth

/-- Model of `findLanguageServerExecutable`: the `cairo1.languageServerPath`
override with the depth-10 development-build walk as fallback. -/
def findLanguageServerExecutable (fs : FileSystem) (cfg : ExtensionConfig)
    (extensionPath : String) (workspaceFolders : Option (List String)) :
    Except Unit (Option String) :=
  findExecutableByConfig fs extensionPath workspaceFolders cfg.languageServerPath
    (fun rootPath => findDevLanguageServerAt fs rootPath 10)

/-- Model of `findScarbExecutable`: the PATH search for `"scarb"` is computed
up front, then `cairo1.scarbPath` override resolution runs with that result
as the (root-path-insensitive) fallback. -/
def findScarbExecutable (fs : FileSystem) (delim : Char) (env : ProcessEnv)
    (cfg : ExtensionConfig) (extensionPath : String)
    (workspaceFolders : Option (List String)) : Except Unit (Option String) :=
  let scarbFromPath := findExecutableInPath fs delim env "scarb"
  findExecutableByConfig fs extensionPath workspaceFolders cfg.scarbPath
    (fun _ => scarbFromPath)

/-- The path `start` with `n` `"/.."` ascents appended, i.e. the path the
development walk probes at level `n`. -/
def ancestorPath (start : String) : Nat → String
  | 0 => start
  | n + 1 => ancestorPath start n ++ "/.."

/-- The candidates the development walk probes from `path` with `depth`
levels left, in probe order: release then debug at the current level, then
the next level up. -/
def devCandidates (path : String) : Nat → List String
  | 0 => []
  | d + 1 =>
    (path ++ "/target/release/cairo-language-server") ::
    (path ++ "/target/debug/cairo-language-server") ::
    devCandidates (path ++ "/..") d

/-- Observable host state of the bootstrap: the output-channel lines and the
executables spawned so far. -/
structure HostState where
  outputLines : List String
  spawned : List String
deriving DecidableEq, Repr

/-- A single-quote as a one-character string (for building message texts). -/
def singleQuoteStr : String := String.mk [singleQuoteChar]

/-- The diagnostic logged when the language server cannot be located. -/
def lsNotFoundMessage : String :=
  "Cairo language server was not found. Make sure cairo-lang-server is " ++
    "installed and that the configuration " ++ singleQuoteStr ++
    "cairo1.languageServerPath" ++ singleQuoteStr ++ " is correct."

/-- The line logged before spawning the located language server. -/
def lsRunningMessage (executable : String) : String :=
  "Cairo language server running from: " ++ executable

/-- Model of one invocation of the `serverOptions` closure in
`setupLanguageServer`: locate the language server; if the result is falsy,
log the diagnostic and return without resolving (no spawn, transport `none`);
otherwise log the path, spawn the executable and resolve with it. -/
def serverOptionsRun (fs : FileSystem) (cfg : ExtensionConfig)
    (extensionPath : String) (workspaceFolders : Option (List String))
    (st : HostState) : Except Unit (HostState × Option String) :=
  match findLanguageServerExecutable fs cfg extensionPath workspaceFolders with
  | .error e => .error e
  | .ok executable =>
    match executable with
    | none =>
      .ok ({ st with outputLines := st.outputLines ++ [lsNotFoundMessage] }, none)
    | some exe =>
      if exe = "" then
        .ok ({ st with outputLines := st.outputLines ++ [lsNotFoundMessage] }, none)
      else
        .ok ({ st with
                outputLines := st.outputLines ++ [lsRunningMessage exe],
                spawned := st.spawned ++ [exe] },
             some exe)

/-- An external stimulus hitting the vfs content provider: a content request
from the editor for a URI, or a `vfs/update` notification from the server. -/
inductive VfsEvent where
  | fetch (uri : String)
  | update (uri : String)

/-- Observable history of the vfs content provider: the `(method, uri)`
requests sent through the client session, the URIs fired on the change
emitter, and the content strings returned to the editor. -/
structure VfsTrace where
  requests : List (String × String)
  fired : List String
  results : List String
deriving DecidableEq, Repr

/-- Model of the two handlers of the provider registered in
`setupLanguageServer`: `provideTextDocumentContent` sends a `"vfs/provide"`
request for the URI and returns `res.content` (here `provide uri`, the
server's current content) verbatim, with no state kept; the `vfs/update`
handler fires the change emitter with exactly the notified URI. -/
def vfsHandleEvent (provide : String → String) (tr : VfsTrace) : VfsEvent → VfsTrace
  | .fetch uri =>
    { tr with
        requests := tr.requests ++ [("vfs/provide", uri)],
        results := tr.results ++ [provide uri] }
  | .update uri => { tr with fired := tr.fired ++ [uri] }

/-- Run the provider against a sequence of events; each event carries the
server's content map at the moment it is handled, so that server-side content
changes between events are expressible. -/
def vfsRun : VfsTrace → List ((String → String) × VfsEvent) → VfsTrace
  | tr, [] => tr
  | tr, (provide, ev) :: rest => vfsRun (vfsHandleEvent provide tr ev) rest

/-! ### List helpers -/

/-- Folding an append-one-element step is mapping. -/
theorem foldl_push_eq {α β : Type} (h : α → β) (l : List α) :
    ∀ acc : List β, l.foldl (fun a x => a ++ [h x]) acc = acc ++ l.map h := by
  induction l with
  | nil => intro acc; simp
  | cons x l ih => intro acc; simp [ih]

/-- Folding an append-a-block step is flat-mapping. -/
theorem foldl_flat_eq {α β : Type} (g : α → List β) (l : List α) :
    ∀ acc : List β, l.foldl (fun a x => a ++ g x) acc = acc ++ l.flatMap g := by
  induction l with
  | nil => intro acc; simp
  | cons x l ih => intro acc; simp [ih]

/-- The push-loop candidate construction of `findExecutableInPath` is the
flat map of the per-directory extension lists: directories in the outer
position, extensions in the inner position. -/
theorem candidatesOf_eq (delim : Char) (env : ProcessEnv) (name : String) :
    candidatesOf delim env name =
      (pathDirsOf delim (env.PATH.getD "")).flatMap
        (fun d => (extensionsOf (env.PATHEXT.getD "")).map
          (fun ext => pathJoin d (name ++ ext))) := by
  unfold candidatesOf
  have h1 : (fun (acc : List String) (d : String) =>
      (extensionsOf (env.PATHEXT.getD "")).foldl
        (fun acc2 ext => acc2 ++ [pathJoin d (name ++ ext)]) acc) =
      (fun (acc : List String) (d : String) =>
        acc ++ (extensionsOf (env.PATHEXT.getD "")).map
          (fun ext => pathJoin d (name ++ ext))) := by
    funext acc d
    exact foldl_push_eq _ _ acc
  rw [h1, foldl_flat_eq]
  simp

/-- Membership in the candidate list is exactly membership in the Cartesian
product of directories and extensions. -/
theorem mem_candidatesOf {delim : Char} {env : ProcessEnv} {name c : String} :
    c ∈ candidatesOf delim env name ↔
      ∃ d ∈ pathDirsOf delim (env.PATH.getD ""),
        ∃ ext ∈ extensionsOf (env.PATHEXT.getD ""),
          c = pathJoin d (name ++ ext) := by
  rw [candidatesOf_eq]
  simp only [List.mem_flatMap, List.mem_map]
  constructor
  · rintro ⟨d, hd, ext, hext, rfl⟩
    exact ⟨d, hd, ext, hext, rfl⟩
  · rintro ⟨d, hd, ext, hext, rfl⟩
    exact ⟨d, hd, ext, hext, rfl⟩

/-- Every character of every segment produced by `splitChar` comes from the
input. -/
theorem mem_of_mem_splitChar {delim : Char} :
    ∀ {l seg : List Char}, seg ∈ splitChar delim l → ∀ {c : Char}, c ∈ seg → c ∈ l := by
  intro l
  induction l with
  | nil =>
    intro seg hseg c hc
    simp only [splitChar, List.mem_singleton] at hseg
    subst hseg
    simp at hc
  | cons a rest ih =>
    intro seg hseg c hc
    by_cases hd : a = delim
    · rw [splitChar, if_pos hd] at hseg
      rcases List.mem_cons.mp hseg with h1 | h2
      · subst h1; simp at hc
      · exact List.mem_cons_of_mem _ (ih h2 hc)
    · rw [splitChar, if_neg hd] at hseg
      cases h : splitChar delim rest with
      | nil =>
        rw [h] at hseg
        simp only [List.mem_singleton] at hseg
        subst hseg
        rcases List.mem_singleton.mp hc with rfl
        exact List.mem_cons_self _ _
      | cons s ss =>
        rw [h] at hseg
        rcases List.mem_cons.mp hseg with h1 | h2
        · subst h1
          rcases List.mem_cons.mp hc with rfl | hs
          · exact List.mem_cons_self _ _
          · exact List.mem_cons_of_mem _ (ih (h ▸ List.mem_cons_self s ss) hs)
        · exact List.mem_cons_of_mem _ (ih (h ▸ List.mem_cons_of_mem s h2) hc)

/-- Every directory entry used for candidate construction is non-empty and
contains no double-quote character. -/
theorem pathDirsOf_spec (delim : Char) (envPath : String) :
    ∀ d ∈ pathDirsOf delim envPath,
      d ≠ "" ∧ d.data.all (fun ch => !(ch == quoteChar)) = true := by
  intro d hd
  unfold pathDirsOf at hd
  rw [List.mem_filter] at hd
  obtain ⟨hmem, hpred⟩ := hd
  constructor
  · intro h
    rw [h] at hpred
    simp at hpred
  · rw [List.all_eq_true]
    intro ch hch
    rw [List.mem_map] at hmem
    obtain ⟨seg, hseg, rfl⟩ := hmem
    have hchs : ch ∈ seg := hch
    have hin : ch ∈ (stripQuotes envPath).data := mem_of_mem_splitChar hseg hchs
    unfold stripQuotes at hin
    have := (List.mem_filter.mp hin).2
    simpa using this

/-- Stripping double-quotes is idempotent. -/
theorem stripQuotes_idem (s : String) : stripQuotes (stripQuotes s) = stripQuotes s := by
  unfold stripQuotes
  rw [List.filter_filter]
  simp only [Bool.and_self]

/-- The directory list only depends on the quote-stripped PATH value. -/
theorem pathDirsOf_stripQuotes (delim : Char) (envPath : String) :
    pathDirsOf delim envPath = pathDirsOf delim (stripQuotes envPath) := by
  unfold pathDirsOf
  rw [stripQuotes_idem]

/-- No candidate is the empty string (each one contains the joining slash). -/
theorem candidatesOf_ne_empty {delim : Char} {env : ProcessEnv} {name : String} :
    ∀ c ∈ candidatesOf delim env name, c ≠ "" := by
  intro c hc
  rw [mem_candidatesOf] at hc
  obtain ⟨d, _, ext, _, rfl⟩ := hc
  intro h
  have hlen := congrArg String.length h
  simp only [pathJoin, String.length_append] at hlen
  have hone : ("/" : String).length = 1 := rfl
  have hzero : ("" : String).length = 0 := rfl
  omega

/-- A slot never touched by the schedule keeps its initial value. -/
theorem fillSlots_not_mem {checks : List (Option String)} :
    ∀ {order : List Nat} {slots : Nat → Option (Option String)} {i : Nat},
      i ∉ order → fillSlots checks order slots i = slots i := by
  intro order
  induction order with
  | nil => intro slots i _; rfl
  | cons j rest ih =>
    intro slots i h
    rw [fillSlots]
    rw [ih (fun hmem => h (List.mem_cons_of_mem _ hmem))]
    have hij : i ≠ j := fun he => h (he ▸ List.mem_cons_self _ _)
    simp [hij]

/-- A slot written by the schedule holds its check's value, no matter how
often or in which order the schedule writes. -/
theorem fillSlots_mem {checks : List (Option String)} :
    ∀ {order : List Nat} {slots : Nat → Option (Option String)} {i : Nat},
      i ∈ order → fillSlots checks order slots i = some (checks.getD i none) := by
  intro order
  induction order with
  | nil => intro slots i h; simp at h
  | cons j rest ih =>
    intro slots i h
    rw [fillSlots]
    by_cases hr : i ∈ rest
    · exact ih hr
    · have hij : i = j := by
        rcases List.mem_cons.mp h with h1 | h2
        · exact h1
        · exact absurd h2 hr
      rw [fillSlots_not_mem hr]
      simp [hij]

/-- Reading every position of a list back by index reproduces the list. -/
theorem range_map_getD {α : Type} (l : List α) (d : α) :
    (List.range l.length).map (fun i => l.getD i d) = l := by
  induction l with
  | nil => rfl
  | cons a l ih =>
    rw [List.length_cons, List.range_succ_eq_map, List.map_cons, List.map_map]
    have hcomp : ((fun i => (a :: l).getD i d) ∘ Nat.succ) = (fun i => l.getD i d) := by
      funext i; rfl
    rw [hcomp, ih]
    rfl

/-- Once every check has completed, the assembled results array of
`Promise.all` is the checks in index order — independent of the completion
schedule. -/
theorem promiseAllSched_complete {checks : List (Option String)} {order : List Nat}
    (h : ∀ i, i < checks.length → i ∈ order) :
    promiseAllSched checks order = checks := by
  unfold promiseAllSched
  have hcongr : (List.range checks.length).map
      (fun i => (fillSlots checks order (fun _ => none) i).getD none) =
      (List.range checks.length).map (fun i => checks.getD i none) := by
    apply List.map_congr_left
    intro i hi
    rw [fillSlots_mem (h i (List.mem_range.mp hi))]
    rfl
  rw [hcongr, range_map_getD]

/-- Taking the first truthy stat result is taking the first candidate that is
a regular file, provided no candidate is the empty string. -/
theorem find_truthy_eq_find_isFile (fs : FileSystem) :
    ∀ cs : List String, (∀ c ∈ cs, c ≠ "") →
      ((cs.map (fileExists fs)).find? jsTruthy).join = cs.find? (isFile fs) := by
  intro cs
  induction cs with
  | nil => intro _; rfl
  | cons c cs ih =>
    intro h
    have hc : c ≠ "" := h c (List.mem_cons_self _ _)
    have hrest : ∀ x ∈ cs, x ≠ "" := fun x hx => h x (List.mem_cons_of_mem _ hx)
    cases hstat : fs c with
    | file =>
      have h1 : jsTruthy (fileExists fs c) = true := by
        simp [fileExists, hstat, jsTruthy, hc]
      have h2 : isFile fs c = true := by simp [isFile, hstat]
      rw [List.map_cons, List.find?_cons_of_pos _ h1, List.find?_cons_of_pos _ h2]
      simp [fileExists, hstat]
    | dir =>
      have h1 : jsTruthy (fileExists fs c) = false := by
        simp [fileExists, hstat, jsTruthy]
      have h2 : isFile fs c = false := by simp [isFile, hstat]
      rw [List.map_cons, List.find?_cons_of_neg _ (by simp [h1]),
        List.find?_cons_of_neg _ (by simp [h2])]
      exact ih hrest
    | missing =>
      have h1 : jsTruthy (fileExists fs c) = false := by
        simp [fileExists, hstat, jsTruthy]
      have h2 : isFile fs c = false := by simp [isFile, hstat]
      rw [List.map_cons, List.find?_cons_of_neg _ (by simp [h1]),
        List.find?_cons_of_neg _ (by simp [h2])]
      exact ih hrest
    | statError =>
      have h1 : jsTruthy (fileExists fs c) = false := by
        simp [fileExists, hstat, jsTruthy]
      have h2 : isFile fs c = false := by simp [isFile, hstat]
      rw [List.map_cons, List.find?_cons_of_neg _ (by simp [h1]),
        List.find?_cons_of_neg _ (by simp [h2])]
      exact ih hrest

/-- With a truthy configured value, override resolution substitutes the
placeholder, checks `existsSync`, and returns the path or `undefined` — the
fallback callback plays no role. -/
theorem byConfig_some_eq (fs : FileSystem) (extensionPath : String)
    (workspaceFolders : Option (List String)) (c : String)
    (cb : String → Option String) (rootPath : String)
    (hr : resolveRootPath extensionPath workspaceFolders = .ok rootPath)
    (hc : c ≠ "") :
    findExecutableByConfig fs extensionPath workspaceFolders (some c) cb =
      if existsSync fs (jsReplaceAll c workspaceFolderPlaceholder rootPath)
      then .ok (some (jsReplaceAll c workspaceFolderPlaceholder rootPath))
      else .ok none := by
  unfold findExecutableByConfig
  rw [hr]
  simp [hc]

/-- A replacement string without a dollar character expands to itself. -/
theorem dollarExpand_of_dollarFree (matched before after : List Char) :
    ∀ repl : List Char, (∀ ch ∈ repl, ch ≠ dollarChar) →
      dollarExpand matched before after repl = repl := by
  intro repl
  induction repl with
  | nil => intro _; rfl
  | cons c rest ih =>
    intro h
    have hc : c ≠ dollarChar := h c (List.mem_cons_self _ _)
    rw [dollarExpand.eq_def]
    simp only [if_neg hc]
    exact congrArg _ (ih fun ch hch => h ch (List.mem_cons_of_mem _ hch))

/-- For a dollar-free replacement string, the JavaScript replacement is the
verbatim global replacement. -/
theorem jsReplaceAll_of_dollarFree (s pat repl : String)
    (h : ∀ ch ∈ repl.data, ch ≠ dollarChar) :
    jsReplaceAll s pat repl = literalReplaceAll s pat repl := by
  unfold jsReplaceAll literalReplaceAll
  have hsub : (fun before after => dollarExpand pat.data before after repl.data) =
      (fun (_ _ : List Char) => repl.data) := by
    funext b a
    exact dollarExpand_of_dollarFree _ _ _ _ h
  rw [hsub]

/-- The development walk is the first existing entry of its probe list. -/
theorem findDev_eq_find (fs : FileSystem) :
    ∀ (d : Nat) (path : String),
      findDevLanguageServerAt fs path d = (devCandidates path d).find? (existsSync fs) := by
  intro d
  induction d with
  | zero => intro path; rfl
  | succ d ih =>
    intro path
    rw [findDevLanguageServerAt, devCandidates]
    cases h1 : existsSync fs (path ++ "/target/release/cairo-language-server") <;>
      cases h2 : existsSync fs (path ++ "/target/debug/cairo-language-server") <;>
        simp [List.find?_cons, h1, h2, ih]

/-- Walking up one directory shifts the ancestor index by one. -/
theorem ancestorPath_shift (start : String) :
    ∀ n, ancestorPath (start ++ "/..") n = ancestorPath start (n + 1) := by
  intro n
  induction n with
  | zero => rfl
  | succ n ih => rw [ancestorPath, ih]; rfl

/-- The probe list of the development walk, level by level: at each ancestor
level the release build comes before the debug build, and levels are visited
closest-first. -/
theorem devCandidates_eq :
    ∀ (d : Nat) (path : String),
      devCandidates path d = (List.range d).flatMap
        (fun i => [ancestorPath path i ++ "/target/release/cairo-language-server",
                   ancestorPath path i ++ "/target/debug/cairo-language-server"]) := by
  intro d
  induction d with
  | zero => intro path; rfl
  | succ d ih =>
    intro path
    rw [devCandidates, ih, List.range_succ_eq_map]
    rw [List.flatMap_cons]
    have hmap : ∀ l : List Nat, (l.map Nat.succ).flatMap
        (fun i => [ancestorPath path i ++ "/target/release/cairo-language-server",
                   ancestorPath path i ++ "/target/debug/cairo-language-server"]) =
        l.flatMap
          (fun i => [ancestorPath (path ++ "/..") i ++ "/target/release/cairo-language-server",
                     ancestorPath (path ++ "/..") i ++ "/target/debug/cairo-language-server"]) := by
      intro l
      induction l with
      | nil => rfl
      | cons x l ihl =>
        simp only [List.map_cons, List.flatMap_cons, ihl]
        rw [ancestorPath_shift]
    rw [hmap]
    rfl

/-- Running the provider event loop appends element-wise to the trace: one
`vfs/provide` request and one verbatim result per fetch, one fired URI per
update notification. -/
theorem vfsRun_eq :
    ∀ (evs : List ((String → String) × VfsEvent)) (tr : VfsTrace),
      vfsRun tr evs =
        ⟨tr.requests ++ evs.filterMap
            (fun pe => match pe.2 with
              | .fetch u => some ("vfs/provide", u)
              | .update _ => none),
         tr.fired ++ evs.filterMap
            (fun pe => match pe.2 with
              | .update u => some u
              | .fetch _ => none),
         tr.results ++ evs.filterMap
            (fun pe => match pe.2 with
              | .fetch u => some (pe.1 u)
              | .update _ => none)⟩ := by
  intro evs
  induction evs with
  | nil => intro tr; simp [vfsRun]
  | cons pe rest ih =>
    intro tr
    obtain ⟨provide, ev⟩ := pe
    cases ev with
    | fetch u =>
      rw [vfsRun, vfsHandleEvent, ih]
      simp [List.filterMap_cons]
    | update u =>
      rw [vfsRun, vfsHandleEvent, ih]
      simp [List.filterMap_cons]

/-! ### Claims -/

/-- C1: a configured override (`cairo1.languageServerPath` or
`cairo1.scarbPath`) whose substituted value names a non-existent filesystem
entry makes resolution return absent, whatever the fallback strategy would
return — neither the development walk nor the PATH search result is ever
consulted. -/
theorem override_missing_path_returns_absent_no_fallback
    (fs : FileSystem) (extensionPath : String)
    (workspaceFolders : Option (List String)) (c rootPath : String)
    (hr : resolveRootPath extensionPath workspaceFolders = .ok rootPath)
    (hc : c ≠ "")
    (hm : fs (jsReplaceAll c workspaceFolderPlaceholder rootPath) = .missing) :
    (∀ cb, findExecutableByConfig fs extensionPath workspaceFolders (some c) cb = .ok none)
    ∧ (∀ sp en,
        findLanguageServerExecutable fs ⟨some c, sp, en⟩ extensionPath workspaceFolders
          = .ok none)
    ∧ (∀ delim env lp en,
        findScarbExecutable fs delim env ⟨lp, some c, en⟩ extensionPath workspaceFolders
          = .ok none) := by
  have hex : existsSync fs (jsReplaceAll c workspaceFolderPlaceholder rootPath) = false := by
    simp [existsSync, hm]
  have hmain : ∀ cb,
      findExecutableByConfig fs extensionPath workspaceFolders (some c) cb = .ok none := by
    intro cb
    rw [byConfig_some_eq fs extensionPath workspaceFolders c cb rootPath hr hc]
    rw [if_neg (by simp [hex])]
  exact ⟨hmain, fun sp en => hmain _, fun delim env lp en => hmain _⟩

/-- Witness for C1: a concrete broken override is a hard miss for both tools
even though both fallbacks would have produced a path. -/
theorem override_missing_path_witness :
    findExecutableByConfig (fun _ => StatResult.missing) "/ext" none
        (some "/missing/ls") (fun _ => some "/fallback") = .ok none
    ∧ findScarbExecutable (fun _ => StatResult.missing) colonChar ⟨some "/a", none⟩
        ⟨none, some "/missing/ls", none⟩ "/ext" none = .ok none := by
  have h := override_missing_path_returns_absent_no_fallback
    (fun _ => StatResult.missing) "/ext" none "/missing/ls" "/ext" rfl (by decide) rfl
  exact ⟨h.1 _, h.2.2 colonChar ⟨some "/a", none⟩ none none⟩

/-- C2 (counterexample): with extension list `.EXE` the empty-extension
candidate `/a/scarb` demanded by the claim is absent from the candidate list
the code builds. -/
theorem buildtool_empty_extension_counterexample :
    "/a/scarb" ∈ specBuildToolCandidates colonChar ⟨some "/a", some ".EXE"⟩ "scarb"
    ∧ "/a/scarb" ∉ candidatesOf colonChar ⟨some "/a", some ".EXE"⟩ "scarb"
    ∧ candidatesOf colonChar ⟨some "/a", some ".EXE"⟩ "scarb" = ["/a/scarb.EXE"] := by
  refine ⟨by decide, by decide, by decide⟩

/-- C2 (amended): the candidate set is exactly the Cartesian product of the
search-path directories with the segments of the extension-list variable
split on the semicolon — the empty extension is present exactly when the
variable itself contributes an empty segment. -/
theorem buildtool_candidates_cartesian_product :
    ∀ (delim : Char) (env : ProcessEnv) (name c : String),
      c ∈ candidatesOf delim env name ↔
        ∃ d ∈ pathDirsOf delim (env.PATH.getD ""),
          ∃ ext ∈ extensionsOf (env.PATHEXT.getD ""),
            c = pathJoin d (name ++ ext) :=
  fun _ _ _ _ => mem_candidatesOf

/-- C3 (counterexample): an override naming a directory is returned, not
reported absent. -/
theorem override_directory_counterexample :
    (fun p => if p = "/d" then StatResult.dir else StatResult.missing) "/d" = StatResult.dir
    ∧ findExecutableByConfig
        (fun p => if p = "/d" then StatResult.dir else StatResult.missing)
        "/ext" none (some "/d") (fun _ => none) = .ok (some "/d") :=
  ⟨rfl, rfl⟩

/-- C3 (amended): a truthy override path is checked with `existsSync` after
substitution: it is returned whenever any filesystem entry (file *or*
directory) exists there, and resolution reports absent otherwise. -/
theorem override_existence_characterization :
    ∀ (fs : FileSystem) (extensionPath : String)
      (workspaceFolders : Option (List String)) (c rootPath : String)
      (cb : String → Option String),
      resolveRootPath extensionPath workspaceFolders = .ok rootPath → c ≠ "" →
      findExecutableByConfig fs extensionPath workspaceFolders (some c) cb =
        .ok (if existsSync fs (jsReplaceAll c workspaceFolderPlaceholder rootPath)
             then some (jsReplaceAll c workspaceFolderPlaceholder rootPath)
             else none) := by
  intro fs extensionPath workspaceFolders c rootPath cb hr hc
  rw [byConfig_some_eq fs extensionPath workspaceFolders c cb rootPath hr hc]
  cases hex : existsSync fs (jsReplaceAll c workspaceFolderPlaceholder rootPath) <;>
    simp [hex]

/-- Witness for C3 (amended) at a concrete existing override file. -/
theorem override_existence_witness :
    findExecutableByConfig
        (fun p => if p = "/proj/ls" then StatResult.file else StatResult.missing)
        "/ext" none (some "/proj/ls") (fun _ => none) = .ok (some "/proj/ls") := by
  rw [override_existence_characterization
    (fun p => if p = "/proj/ls" then StatResult.file else StatResult.missing)
    "/ext" none "/proj/ls" "/ext" (fun _ => none) rfl (by decide)]
  rfl

/-- C4: once every concurrent existence check has completed — in whatever
order — the build-tool search returns the first candidate in enumeration
order that is a regular file; with at least one matching candidate the result
is that first match (and the schedule semantics agrees with the index-order
`Promise.all` model). -/
theorem buildtool_first_match_schedule_independent :
    ∀ (fs : FileSystem) (delim : Char) (env : ProcessEnv) (name : String)
      (order : List Nat),
      (∀ i, i < (candidatesOf delim env name).length → i ∈ order) →
      (∃ c ∈ candidatesOf delim env name, isFile fs c = true) →
      findExecutableInPathSched fs delim env name order =
          (candidatesOf delim env name).find? (isFile fs)
        ∧ findExecutableInPathSched fs delim env name order =
          findExecutableInPath fs delim env name
        ∧ ((candidatesOf delim env name).find? (isFile fs)).isSome = true := by
  intro fs delim env name order hord hex
  have hne := @candidatesOf_ne_empty delim env name
  have hsched : findExecutableInPathSched fs delim env name order =
      (candidatesOf delim env name).find? (isFile fs) := by
    unfold findExecutableInPathSched
    rw [promiseAllSched_complete (by simpa using hord)]
    exact find_truthy_eq_find_isFile fs _ hne
  have hplain : findExecutableInPath fs delim env name =
      (candidatesOf delim env name).find? (isFile fs) :=
    find_truthy_eq_find_isFile fs _ hne
  refine ⟨hsched, hsched.trans hplain.symm, ?_⟩
  obtain ⟨c, hc, hf⟩ := hex
  rw [List.find?_isSome]
  exact ⟨c, hc, hf⟩

/-- Witness for C4: with `/b/scarb` the only match and a schedule completing
the later check first, the search still returns the enumeration-order match. -/
theorem buildtool_first_match_witness :
    findExecutableInPathSched
        (fun p => if p = "/b/scarb" then StatResult.file else StatResult.missing)
        colonChar ⟨some "/a:/b", none⟩ "scarb" [1, 0] = some "/b/scarb" := by
  have h := buildtool_first_match_schedule_independent
    (fun p => if p = "/b/scarb" then StatResult.file else StatResult.missing)
    colonChar ⟨some "/a:/b", none⟩ "scarb" [1, 0]
    (by decide) ⟨"/b/scarb", by decide, by decide⟩
  rw [h.1]
  decide

/-- C5: with no override configured, language-server resolution is the
development walk: for every starting directory it probes, level by level for
exactly 10 levels ascending one `"/.."` per level, the release build then the
debug build, and returns the first existing probe (absent when all 10 levels
are exhausted). -/
theorem dev_search_release_before_debug_ten_levels :
    ∀ (fs : FileSystem) (start : String) (sp : Option String) (en : Option Bool),
      findLanguageServerExecutable fs ⟨none, sp, en⟩ start none =
        .ok (((List.range 10).flatMap
          (fun i => [ancestorPath start i ++ "/target/release/cairo-language-server",
                     ancestorPath start i ++ "/target/debug/cairo-language-server"])).find?
          (existsSync fs)) := by
  intro fs start sp en
  have h0 : findLanguageServerExecutable fs ⟨none, sp, en⟩ start none =
      .ok (findDevLanguageServerAt fs start 10) := rfl
  rw [h0, findDev_eq_find fs 10 start, devCandidates_eq 10 start]

/-- C6: when the language server cannot be located, the bootstrap appends the
explanatory diagnostic to the output channel and aborts session setup — no
executable is spawned, no transport is produced, and the outcome is an
ordinary value, not an exception. -/
theorem ls_not_found_logs_and_aborts :
    ∀ (fs : FileSystem) (cfg : ExtensionConfig) (extensionPath : String)
      (workspaceFolders : Option (List String)) (st : HostState),
      findLanguageServerExecutable fs cfg extensionPath workspaceFolders = .ok none →
      serverOptionsRun fs cfg extensionPath workspaceFolders st =
        .ok ({ st with outputLines := st.outputLines ++ [lsNotFoundMessage] }, none) := by
  intro fs cfg extensionPath workspaceFolders st h
  unfold serverOptionsRun
  rw [h]

/-- Witness for C6 on an empty filesystem: only the diagnostic is logged and
nothing is spawned. -/
theorem ls_not_found_witness :
    serverOptionsRun (fun _ => StatResult.missing) ⟨none, none, none⟩ "/ext" none
        ⟨[], []⟩ = .ok (⟨[lsNotFoundMessage], []⟩, none) := by
  rw [ls_not_found_logs_and_aborts (fun _ => StatResult.missing) ⟨none, none, none⟩
    "/ext" none ⟨[], []⟩ rfl]
  rfl

/-- C7: the build-tool search is total and error-tolerant: a missing PATH or
PATHEXT behaves exactly like an empty one, an empty PATH yields zero
candidates and an absent result, and stat errors during probing behave
exactly like missing files (they are absorbed, never propagated). -/
theorem buildtool_search_total_and_error_tolerant :
    ∀ (fs : FileSystem) (delim : Char) (name : String),
      (∀ pe, findExecutableInPath fs delim ⟨none, pe⟩ name =
        findExecutableInPath fs delim ⟨some "", pe⟩ name)
      ∧ (∀ pp, findExecutableInPath fs delim ⟨pp, none⟩ name =
        findExecutableInPath fs delim ⟨pp, some ""⟩ name)
      ∧ (∀ pe, candidatesOf delim ⟨some "", pe⟩ name = []
          ∧ findExecutableInPath fs delim ⟨some "", pe⟩ name = none)
      ∧ (∀ env, findExecutableInPath (errorsAsMissing fs) delim env name =
          findExecutableInPath fs delim env name) := by
  intro fs delim name
  refine ⟨fun pe => rfl, fun pp => rfl, fun pe => ⟨rfl, rfl⟩, fun env => ?_⟩
  unfold findExecutableInPath
  have hfe : fileExists (errorsAsMissing fs) = fileExists fs := by
    funext p
    unfold fileExists errorsAsMissing
    cases fs p <;> rfl
  rw [hfe]

/-- C8: over any event sequence, every content fetch sends one
`vfs/provide` request with exactly the fetched URI and returns the server's
content at that moment verbatim (no caching — each fetch re-queries), and
every `vfs/update` notification fires the change event for exactly the
notified URI. -/
theorem vfs_provider_trace_correct :
    ∀ evs : List ((String → String) × VfsEvent),
      vfsRun ⟨[], [], []⟩ evs =
        ⟨evs.filterMap (fun pe => match pe.2 with
            | .fetch u => some ("vfs/provide", u)
            | .update _ => none),
         evs.filterMap (fun pe => match pe.2 with
            | .update u => some u
            | .fetch _ => none),
         evs.filterMap (fun pe => match pe.2 with
            | .fetch u => some (pe.1 u)
            | .update _ => none)⟩ := by
  intro evs
  rw [vfsRun_eq]
  rfl

/-- C9 (counterexample): a workspace folder path containing dollar patterns
is not inserted verbatim — JavaScript replacement expansion turns the folder
`$$` into `$`, so the resolved path differs from the claimed substitution. -/
theorem placeholder_dollar_counterexample :
    jsReplaceAll "${workspaceFolder}/bin/ls" workspaceFolderPlaceholder "$$" = "$/bin/ls"
    ∧ literalReplaceAll "${workspaceFolder}/bin/ls" workspaceFolderPlaceholder "$$"
        = "$$/bin/ls"
    ∧ findExecutableByConfig
        (fun p => if p = "$/bin/ls" then StatResult.file else StatResult.missing)
        "/ext" (some ["$$"]) (some "${workspaceFolder}/bin/ls") (fun _ => none)
      = .ok (some "$/bin/ls") :=
  ⟨rfl, rfl, rfl⟩

/-- C9 (amended): the placeholder is substituted before the existence check,
with the root path being the first workspace folder's path when folders are
open and the extension's install path otherwise; when that root path contains
no dollar character, every occurrence of the placeholder is replaced by it
verbatim. -/
theorem placeholder_substitution_characterization :
    ∀ (fs : FileSystem) (extensionPath : String)
      (workspaceFolders : Option (List String)) (c rootPath : String)
      (cb : String → Option String),
      ((workspaceFolders = none ∧ rootPath = extensionPath) ∨
        (∃ f fl, workspaceFolders = some (f :: fl) ∧ f ≠ "" ∧ rootPath = f)) →
      (∀ ch ∈ rootPath.data, ch ≠ dollarChar) →
      c ≠ "" →
      findExecutableByConfig fs extensionPath workspaceFolders (some c) cb =
        .ok (if existsSync fs (literalReplaceAll c workspaceFolderPlaceholder rootPath)
             then some (literalReplaceAll c workspaceFolderPlaceholder rootPath)
             else none) := by
  intro fs extensionPath workspaceFolders c rootPath cb hroot hdf hc
  have hr : resolveRootPath extensionPath workspaceFolders = .ok rootPath := by
    rcases hroot with ⟨h1, h2⟩ | ⟨f, fl, h1, h2, h3⟩
    · subst h1; subst h2; rfl
    · subst h1; subst h3; simp [resolveRootPath, h2]
  rw [byConfig_some_eq fs extensionPath workspaceFolders c cb rootPath hr hc]
  rw [jsReplaceAll_of_dollarFree c workspaceFolderPlaceholder rootPath hdf]
  cases hex : existsSync fs (literalReplaceAll c workspaceFolderPlaceholder rootPath) <;>
    simp [hex]

/-- Witness for C9 (amended): the spec's own scenario — folder `/proj`,
override `${workspaceFolder}/bin/ls`, file at `/proj/bin/ls`. -/
theorem placeholder_substitution_witness :
    findExecutableByConfig
        (fun p => if p = "/proj/bin/ls" then StatResult.file else StatResult.missing)
        "/ext" (some ["/proj"]) (some "${workspaceFolder}/bin/ls") (fun _ => none)
      = .ok (some "/proj/bin/ls") := by
  rw [placeholder_substitution_characterization
    (fun p => if p = "/proj/bin/ls" then StatResult.file else StatResult.missing)
    "/ext" (some ["/proj"]) "${workspaceFolder}/bin/ls" "/proj" (fun _ => none)
    (Or.inr ⟨"/proj", [], rfl, by decide, rfl⟩) (by decide) (by decide)]
  rfl

/-- C10: every directory entry used to build candidates is non-empty and
double-quote-free, and the directory list depends only on the quote-stripped
PATH value — quoted and empty PATH segments never yield candidates of their
own. -/
theorem path_dirs_quote_free_nonempty :
    ∀ (delim : Char) (envPath : String),
      (∀ d ∈ pathDirsOf delim envPath,
        d ≠ "" ∧ d.data.all (fun ch => !(ch == quoteChar)) = true)
      ∧ pathDirsOf delim envPath = pathDirsOf delim (stripQuotes envPath) := by
  intro delim envPath
  exact ⟨pathDirsOf_spec delim envPath, pathDirsOf_stripQuotes delim envPath⟩

/-- Witness for C10 on a PATH value with quoted and empty segments. -/
theorem path_dirs_quote_free_witness :
    ("/a" ≠ "" ∧ ("/a" : String).data.all (fun ch => !(ch == quoteChar)) = true)
    ∧ pathDirsOf colonChar "\"/a\"::b" = pathDirsOf colonChar (stripQuotes "\"/a\"::b") := by
  have h := path_dirs_quote_free_nonempty colonChar "\"/a\"::b"
  exact ⟨h.1 "/a" (by decide), h.2⟩
